import Mathlib

/-!
Verification development for `src/beast/beast/chrono/basic_seconds_clock.h`.

The header defines two cooperating pieces:

* the local `worker` struct inside `basic_seconds_clock<TrivialClock>::now()`,
  a cached clock facade holding `m_now`, the last sampled reading of the
  underlying clock truncated to whole seconds.  `now()` returns the cached
  value under a mutex; `sample()` (called from the updater thread) re-reads
  the clock and stores the floored value.
* `detail::seconds_clock_thread`, a process-wide scheduler thread holding a
  registry `m_workers`.  Its loop samples every registered worker, computes
  the wake deadline `floor<seconds>(clock::now().time_since_epoch()) +
  seconds(1)`, and waits on a condition variable until the deadline or until
  the stop flag is observed.

Durations are modelled as natural numbers of clock ticks, with `spt` ticks
per second.  The facade is a state machine driven by a list of events
(calls of `now()` and calls of `sample()` tagged with the underlying clock
reading); the scheduler is a labelled transition relation whose pass events
log exactly the listeners the loop invokes.
-/

namespace BasicSecondsClock

/-- Modelled from the spec: the duration-flooring helper from
`chrono_util.h` (not part of the sources here) "given a duration and a
target coarser duration unit, returns the input truncated down (floor) to a
multiple of the unit".  Here `t` is a duration in ticks, `spt` the number
of ticks in one second; the result is the greatest multiple of `spt` that
does not exceed `t`. -/
def floorTo (spt t : ℕ) : ℕ := spt * (t / spt)

/-- The reading step `worker::get_now`: `time_point (floor <resolution> (
TrivialClock::now ().time_since_epoch ()))`, the underlying clock reading
`t` floored to whole seconds. -/
def get_now (spt t : ℕ) : ℕ := floorTo spt t

/-- The state of the facade `worker`: the cached time point `m_now`
(in ticks), plus ghost data `last`, the raw underlying clock reading taken
at the most recent sample (the constructor and `sample()` both read the
clock exactly once). -/
structure Facade where
  m_now : ℕ
  last : ℕ
deriving DecidableEq

/-- The constructor `worker::worker` initializes `m_now (get_now ())` from
a direct clock reading `t0`. -/
def Facade.init (spt t0 : ℕ) : Facade := ⟨get_now spt t0, t0⟩

/-- The callback `worker::sample` re-reads the underlying clock (reading
`t`) and stores `m_now = get_now ()`. -/
def sample (spt t : ℕ) (_f : Facade) : Facade := ⟨get_now spt t, t⟩

/-- The reader `worker::now` returns the cached value `m_now`. -/
def now (f : Facade) : ℕ := f.m_now

/-- Events applied to one facade: a reader calling `now()`, or the
scheduler calling `sample()` while the underlying clock reads `t`. -/
inductive FEv where
  | nowCall : FEv
  | sampleCall : ℕ → FEv
deriving DecidableEq

/-- The underlying clock readings consumed by the `sample()` calls of an
event list, in order. -/
def sampleTimes : List FEv → List ℕ
  | [] => []
  | .nowCall :: es => sampleTimes es
  | .sampleCall t :: es => t :: sampleTimes es

/-- Run the facade over an event list, collecting for each `now()` call the
pair (returned value, ghost reading at the last sample). -/
def runFacade (spt : ℕ) : Facade → List FEv → List (ℕ × ℕ)
  | _, [] => []
  | f, .nowCall :: es => (now f, f.last) :: runFacade spt f es
  | f, .sampleCall t :: es => runFacade spt (sample spt t f) es

/-- Run the facade over an event list, returning the final state. -/
def runState (spt : ℕ) : Facade → List FEv → Facade
  | f, [] => f
  | f, .nowCall :: es => runState spt f es
  | f, .sampleCall t :: es => runState spt (sample spt t f) es

/-! ## The scheduler: `detail::seconds_clock_thread` -/

/-- Identity of a registered listener (the address of a
`seconds_clock_worker` in the source). -/
abbrev Wid := ℕ

/-- Where the background thread of the scheduler is in its `run()` code.
`atStart`: the thread has not yet acquired the mutex (before the first
iteration of the loop; no stop check happens before that first sample
pass).  `atWait`: blocked in `m_cond.wait_until` with the mutex released.
`exited`: `run()` has returned.  Outside the wait the loop holds the mutex,
so every externally visible state is one of these three. -/
inductive Pc where
  | atStart : Pc
  | atWait : Pc
  | exited : Pc
deriving DecidableEq

/-- The scheduler state: the stop flag, the listener registry
`m_workers` (a vector of pointers, in insertion order), and the loop
position. -/
structure Sched where
  m_stop : Bool
  m_workers : List Wid
  pc : Pc
deriving DecidableEq

/-- Modelling `vector::erase(it)` where `it` is an iterator at index `i`:
valid only when `i` is a dereferenceable position, i.e. `i < length`;
erasing at `end()` is invalid (`none`). -/
def eraseIt (l : List Wid) (i : ℕ) : Option (List Wid) :=
  if i < l.length then some (l.eraseIdx i) else none

/-- The body of `seconds_clock_thread::remove`:
`m_workers.erase (std::find (m_workers.begin (), m_workers.end (), &w))`.
`std::find` yields the index of the first occurrence of `w`, or `length`
(that is, `end()`) when `w` is absent, in which case the erase is invalid
(`none`). -/
def removeImpl (l : List Wid) (w : Wid) : Option (List Wid) :=
  eraseIt l (l.indexOf w)

/-- The wake deadline computed by each loop iteration:
`floor <seconds> (clock_type::now().time_since_epoch()) + seconds (1)`,
with `t` the current reading of the scheduler clock in ticks. -/
def nextDeadline (spt t : ℕ) : ℕ := floorTo spt t + spt

/-- Observable events of the scheduler.
`pass ws t d`: one iteration of the loop body ran while the scheduler clock
read `t`: it invoked `sample()` once on each listener in `ws` in that
order, then computed the wake deadline `d`.
`exitLoop`: the predicate of `wait_until` saw `m_stop` and `run()`
returned.  `setStop` is the destructor setting the flag under the mutex. -/
inductive Ev where
  | add : Wid → Ev
  | remove : Wid → Ev
  | setStop : Ev
  | pass : List Wid → ℕ → ℕ → Ev
  | exitLoop : Ev
deriving DecidableEq

/-- One transition of the scheduler.  `add`, `remove` and `setStop` take
the mutex, which is available in every modelled state (the loop body runs
atomically between waits).  A `pass` happens unconditionally on loop entry
(`firstPass`, before any stop check) and from the wait whenever the
deadline expires with the stop flag down (`nextPass`); the loop exits at
the wait exactly when the flag is up. -/
inductive Step (spt : ℕ) : Sched → Ev → Sched → Prop where
  | add (s : Sched) (w : Wid) :
      Step spt s (.add w) { s with m_workers := s.m_workers ++ [w] }
  | remove (s : Sched) (w : Wid) (l' : List Wid)
      (h : removeImpl s.m_workers w = some l') :
      Step spt s (.remove w) { s with m_workers := l' }
  | setStop (s : Sched) :
      Step spt s .setStop { s with m_stop := true }
  | firstPass (s : Sched) (t : ℕ) (h : s.pc = .atStart) :
      Step spt s (.pass s.m_workers t (nextDeadline spt t))
        { s with pc := .atWait }
  | nextPass (s : Sched) (t : ℕ) (h1 : s.pc = .atWait) (h2 : s.m_stop = false) :
      Step spt s (.pass s.m_workers t (nextDeadline spt t))
        { s with pc := .atWait }
  | exitLoop (s : Sched) (h1 : s.pc = .atWait) (h2 : s.m_stop = true) :
      Step spt s .exitLoop { s with pc := .exited }

/-- A finite execution: a list of events joining two scheduler states. -/
inductive Steps (spt : ℕ) : Sched → List Ev → Sched → Prop where
  | nil (s : Sched) : Steps spt s [] s
  | cons {s s' s'' : Sched} {e : Ev} {es : List Ev} :
      Step spt s e s' → Steps spt s' es s'' → Steps spt s (e :: es) s''

/-- Repeated `add`: fold `push_back` over a list of listeners. -/
def addSeq (l : List Wid) (ws : List Wid) : List Wid :=
  ws.foldl (fun acc w => acc ++ [w]) l

/-- Repeated `remove`: fold the erase-after-find removal over a list of
listeners, failing if any removal hits the invalid erase-at-end branch. -/
def removeSeq : List Wid → List Wid → Option (List Wid)
  | l, [] => some l
  | l, w :: ws =>
    match removeImpl l w with
    | some l' => removeSeq l' ws
    | none => none

/-! ## Basic facts about flooring and the deadline -/

theorem floorTo_le (spt t : ℕ) : floorTo spt t ≤ t := by
  simpa [floorTo, Nat.mul_comm] using Nat.div_mul_le_self t spt

theorem floorTo_mod (spt t : ℕ) : floorTo spt t % spt = 0 := by
  simp [floorTo]

theorem floorTo_mono (spt : ℕ) {a b : ℕ} (h : a ≤ b) :
    floorTo spt a ≤ floorTo spt b :=
  Nat.mul_le_mul_left _ (Nat.div_le_div_right h)

theorem nextDeadline_mod (spt t : ℕ) : nextDeadline spt t % spt = 0 := by
  simp [nextDeadline, floorTo, Nat.add_mod_right, Nat.mul_mod_right]

theorem lt_nextDeadline (spt t : ℕ) (h : 0 < spt) : t < nextDeadline spt t := by
  have hm : t % spt < spt := Nat.mod_lt t h
  calc t = spt * (t / spt) + t % spt := (Nat.div_add_mod t spt).symm
    _ < spt * (t / spt) + spt := Nat.add_lt_add_left hm _

theorem nextDeadline_le (spt t : ℕ) : nextDeadline spt t ≤ t + spt :=
  Nat.add_le_add_right (floorTo_le spt t) spt

theorem nextDeadline_least (spt t m : ℕ) (h : 0 < spt) (hm : m % spt = 0)
    (ht : t < m) : nextDeadline spt t ≤ m := by
  obtain ⟨k, rfl⟩ : ∃ k, m = spt * k :=
    ⟨m / spt, by rw [Nat.mul_div_cancel' (Nat.dvd_of_mod_eq_zero hm)]⟩
  have hk : t / spt < k := (Nat.div_lt_iff_lt_mul h).2 (by rwa [Nat.mul_comm] at ht)
  have hle : spt * (t / spt + 1) ≤ spt * k :=
    Nat.mul_le_mul_left spt (Nat.succ_le_of_lt hk)
  simpa [nextDeadline, floorTo, Nat.mul_add, Nat.mul_one] using hle

/-! ## Helper lemmas about removal and facade runs -/

theorem removeImpl_eq (l : List Wid) (w : Wid) :
    removeImpl l w = if w ∈ l then some (l.erase w) else none := by
  by_cases h : w ∈ l
  · simp [removeImpl, eraseIt, List.indexOf_lt_length.2 h, h,
      List.eraseIdx_indexOf_eq_erase]
  · have h' : ¬ l.indexOf w < l.length := fun hc => h (List.indexOf_lt_length.1 hc)
    simp [removeImpl, eraseIt, h', h]

theorem removeImpl_some {l l' : List Wid} {w : Wid}
    (h : removeImpl l w = some l') : w ∈ l ∧ l' = l.erase w := by
  rw [removeImpl_eq] at h
  by_cases hm : w ∈ l
  · rw [if_pos hm] at h
    exact ⟨hm, (Option.some.injEq _ _ ▸ h).symm⟩
  · rw [if_neg hm] at h
    exact absurd h (by simp)

/-- Running the facade over events that contain no `sample()` call leaves
the state (in particular the cached value) unchanged, and every `now()`
call returns that unchanged cached value. -/
theorem runFacade_no_sample (spt : ℕ) (f : Facade) (evs : List FEv) :
    (∀ u, FEv.sampleCall u ∉ evs) →
    runState spt f evs = f ∧
      ∀ p ∈ runFacade spt f evs, p = (f.m_now, f.last) := by
  induction evs with
  | nil => exact fun _ => ⟨rfl, by simp [runFacade]⟩
  | cons e es ih =>
    intro h
    cases e with
    | nowCall =>
      have h' : ∀ u, FEv.sampleCall u ∉ es :=
        fun u hu => h u (List.mem_cons_of_mem _ hu)
      obtain ⟨h1, h2⟩ := ih h'
      refine ⟨h1, ?_⟩
      intro p hp
      rcases List.mem_cons.1 hp with rfl | hp
      · rfl
      · exact h2 p hp
    | sampleCall t => exact absurd (List.mem_cons_self _ _) (h t)

/-- Facade invariant: starting from a state whose cached value is the
floored last reading, every `now()` output is a multiple of one second and
never exceeds the raw reading taken at its last sample. -/
theorem runFacade_inv (spt : ℕ) (evs : List FEv) :
    ∀ f : Facade, f.m_now = get_now spt f.last →
    ∀ p ∈ runFacade spt f evs, p.1 % spt = 0 ∧ p.1 ≤ p.2 := by
  induction evs with
  | nil => intro f _ p hp; simp [runFacade] at hp
  | cons e es ih =>
    intro f hf p hp
    cases e with
    | nowCall =>
      rw [runFacade] at hp
      rcases List.mem_cons.1 hp with rfl | hp
      · constructor
        · simpa [now, hf, get_now] using floorTo_mod spt f.last
        · simpa [now, hf, get_now] using floorTo_le spt f.last
      · exact ih f hf p hp
    | sampleCall t =>
      rw [runFacade] at hp
      exact ih (sample spt t f) rfl p hp

theorem chain_weaken {a b : ℕ} {l : List ℕ} (hab : a ≤ b)
    (h : List.Chain' (· ≤ ·) (b :: l)) : List.Chain' (· ≤ ·) (a :: l) := by
  cases l with
  | nil => simp
  | cons x xs =>
    rw [List.chain'_cons] at h ⊢
    exact ⟨le_trans hab h.1, h.2⟩

/-- Facade monotonicity: if the readings fed to the facade (its
construction reading `u` followed by the readings of the `sample()` calls)
are non-decreasing, then the cached value floored from `u` together with
all subsequent `now()` outputs form a non-decreasing sequence. -/
theorem runFacade_chain (spt : ℕ) (evs : List FEv) :
    ∀ u : ℕ, List.Chain' (· ≤ ·) (u :: sampleTimes evs) →
    List.Chain' (· ≤ ·)
      (get_now spt u :: (runFacade spt (Facade.init spt u) evs).map Prod.fst) := by
  induction evs with
  | nil => intro u _; simp [runFacade]
  | cons e es ih =>
    intro u hu
    cases e with
    | nowCall =>
      have h1 := ih u (by simpa [sampleTimes] using hu)
      rw [runFacade, List.map_cons, List.chain'_cons]
      exact ⟨le_refl _, h1⟩
    | sampleCall t =>
      have hu' : List.Chain' (· ≤ ·) (u :: t :: sampleTimes es) := by
        simpa [sampleTimes] using hu
      rw [List.chain'_cons] at hu'
      have h1 := ih t hu'.2
      rw [runFacade]
      exact chain_weaken (floorTo_mono spt hu'.1) h1

/-! ## Helper lemmas about the scheduler -/

/-- The body of `seconds_clock_thread::add`: `m_workers.push_back (&w)`
appends. -/
theorem add_appends {spt : ℕ} {s s' : Sched} {w : Wid}
    (h : Step spt s (.add w) s') : s'.m_workers = s.m_workers ++ [w] := by
  cases h; rfl

/-- The invocation sequence of a `pass` event is exactly the registry at
the time of the pass: `for (auto iter : m_workers) iter->sample();`. -/
theorem pass_is_registry {spt : ℕ} {s s' : Sched} {ws : List Wid} {t d : ℕ}
    (h : Step spt s (.pass ws t d) s') :
    ws = s.m_workers ∧ d = nextDeadline spt t := by
  cases h <;> exact ⟨rfl, rfl⟩

/-- A single step that is not `add w` cannot bring an absent worker `w`
back into the registry, and if it is a pass it does not invoke `w`. -/
theorem step_not_mem {spt : ℕ} {s s' : Sched} {e : Ev} (hstep : Step spt s e s')
    (w : Wid) (hw : w ∉ s.m_workers) (hne : e ≠ Ev.add w) :
    w ∉ s'.m_workers ∧ ∀ ws t d, e = Ev.pass ws t d → w ∉ ws := by
  cases hstep with
  | add v =>
    refine ⟨?_, by intro ws t d h; cases h⟩
    have hvw : v ≠ w := fun hvw => hne (by rw [hvw])
    simp only [List.mem_append, List.mem_singleton]
    rintro (h | h)
    · exact hw h
    · exact hvw h.symm
  | remove v l' hrm =>
    obtain ⟨hv, rfl⟩ := removeImpl_some hrm
    exact ⟨fun hm => hw (List.mem_of_mem_erase hm), by intro ws t d h; cases h⟩
  | setStop => exact ⟨hw, by intro ws t d h; cases h⟩
  | firstPass t h =>
    exact ⟨hw, by intro ws u d h'; cases h'; exact hw⟩
  | nextPass t h1 h2 =>
    exact ⟨hw, by intro ws u d h'; cases h'; exact hw⟩
  | exitLoop h1 h2 => exact ⟨hw, by intro ws t d h; cases h⟩

/-- A worker absent from the registry stays absent along any execution that
never adds it back, and no pass during that execution invokes it. -/
theorem steps_not_mem (spt : ℕ) (w : Wid) {s s' : Sched} {evs : List Ev}
    (h : Steps spt s evs s') :
    w ∉ s.m_workers → Ev.add w ∉ evs →
    w ∉ s'.m_workers ∧ ∀ ws t d, Ev.pass ws t d ∈ evs → w ∉ ws := by
  induction h with
  | nil => intro hw _; exact ⟨hw, by simp⟩
  | @cons s1 s2 s3 e es hstep hrest ih =>
    intro hw hnoadd
    have hne : e ≠ Ev.add w := fun he => hnoadd (he ▸ List.mem_cons_self _ _)
    have hna : Ev.add w ∉ es := fun hm => hnoadd (List.mem_cons_of_mem _ hm)
    obtain ⟨hw2, hpass⟩ := step_not_mem hstep w hw hne
    obtain ⟨hw3, hpasses⟩ := ih hw2 hna
    refine ⟨hw3, ?_⟩
    intro ws t d hm
    rcases List.mem_cons.1 hm with he | hm
    · exact hpass ws t d he.symm
    · exact hpasses ws t d hm

/-- Once the stop flag is up and the loop is past its unconditional entry
pass, every reachable state keeps the flag up, never returns to the entry
point, and no further pass occurs. -/
theorem steps_stopped (spt : ℕ) {s s' : Sched} {evs : List Ev}
    (h : Steps spt s evs s') :
    s.m_stop = true → s.pc ≠ Pc.atStart →
    s'.m_stop = true ∧ s'.pc ≠ Pc.atStart ∧ ∀ ws t d, Ev.pass ws t d ∉ evs := by
  induction h with
  | nil => intro h1 h2; exact ⟨h1, h2, by simp⟩
  | @cons s1 s2 s3 e es hstep hrest ih =>
    intro h1 h2
    have key : s2.m_stop = true ∧ s2.pc ≠ Pc.atStart ∧
        ∀ ws t d, e ≠ Ev.pass ws t d := by
      cases hstep with
      | add v => exact ⟨h1, h2, by intro ws t d h; cases h⟩
      | remove v l' hrm => exact ⟨h1, h2, by intro ws t d h; cases h⟩
      | setStop => exact ⟨rfl, h2, by intro ws t d h; cases h⟩
      | firstPass t h => exact absurd h h2
      | nextPass t ha hb => simp [hb] at h1
      | exitLoop ha hb => exact ⟨h1, by simp, by intro ws t d h; cases h⟩
    obtain ⟨k1, k2, k3⟩ := key
    obtain ⟨m1, m2, m3⟩ := ih k1 k2
    refine ⟨m1, m2, ?_⟩
    intro ws t d hm
    rcases List.mem_cons.1 hm with he | hm
    · exact k3 ws t d he.symm
    · exact m3 ws t d hm

theorem addSeq_eq (l ws : List Wid) : addSeq l ws = l ++ ws := by
  induction ws generalizing l with
  | nil => simp [addSeq]
  | cons w ws ih =>
    show addSeq (l ++ [w]) ws = _
    rw [ih, List.append_assoc, List.singleton_append]

theorem removeSeq_reverse (ws : List Wid) (h : ws.Nodup) :
    removeSeq ws ws.reverse = some [] := by
  induction ws using List.reverseRecOn with
  | nil => rfl
  | append_singleton l a ih =>
    have hnl : l.Nodup ∧ a ∉ l := by
      simp [List.nodup_append] at h
      exact ⟨h.1, h.2⟩
    have hmem : a ∈ l ++ [a] := by simp
    have herase : (l ++ [a]).erase a = l := by
      rw [List.erase_append_right _ hnl.2, List.erase_cons_head, List.append_nil]
    rw [List.reverse_append, List.reverse_singleton, List.singleton_append,
      removeSeq, removeImpl_eq, if_pos hmem, herase]
    exact ih hnl.1

/-! ## The claims -/

/-- C1: `sample()` is the only operation writing the cached value.  After
`sample()` runs while the underlying clock reads `t`, any sequence of
events with no further `sample()` leaves the facade state unchanged, and
every `now()` call in it returns the duration of `t` since the epoch
truncated down to whole seconds, namely `spt * (t / spt)`. -/
theorem C1_sample_only_write_path (spt t : ℕ) (f : Facade) (evs : List FEv)
    (hno : ∀ u, FEv.sampleCall u ∉ evs) :
    runState spt (sample spt t f) evs = sample spt t f ∧
    ∀ p ∈ runFacade spt (sample spt t f) evs, p.1 = spt * (t / spt) := by
  obtain ⟨h1, h2⟩ := runFacade_no_sample spt (sample spt t f) evs hno
  refine ⟨h1, fun p hp => ?_⟩
  rw [h2 p hp]
  rfl

theorem C1_witness :
    (∀ u, FEv.sampleCall u ∉ [FEv.nowCall, FEv.nowCall]) ∧
    (runState 1000 (sample 1000 2345 ⟨0, 0⟩) [FEv.nowCall, FEv.nowCall] =
        sample 1000 2345 ⟨0, 0⟩ ∧
      ∀ p ∈ runFacade 1000 (sample 1000 2345 ⟨0, 0⟩) [FEv.nowCall, FEv.nowCall],
        p.1 = 1000 * (2345 / 1000)) :=
  ⟨by intro u; simp,
   C1_sample_only_write_path 1000 2345 ⟨0, 0⟩ [FEv.nowCall, FEv.nowCall]
     (by intro u; simp)⟩

/-- C2: every value returned by `now()` is an exact multiple of one second
(`spt` ticks) and never greater than the underlying clock reading taken at
the last sample (the ghost second component). -/
theorem C2_now_floored (spt t0 : ℕ) (evs : List FEv) :
    ∀ p ∈ runFacade spt (Facade.init spt t0) evs, p.1 % spt = 0 ∧ p.1 ≤ p.2 :=
  runFacade_inv spt evs (Facade.init spt t0) rfl

theorem C2_witness :
    ((10000 : ℕ), (10700 : ℕ)) ∈ runFacade 1000 (Facade.init 1000 10700) [FEv.nowCall] ∧
    ((10000 : ℕ) % 1000 = 0 ∧ (10000 : ℕ) ≤ 10700) :=
  ⟨by decide, C2_now_floored 1000 10700 [FEv.nowCall] (10000, 10700) (by decide)⟩

/-- C3: wrapping a steady source, i.e. with the construction reading `t0`
followed by the readings of the successive `sample()` calls forming a
non-decreasing sequence, the values returned by the `now()` calls across
any interleaving of `sample()` and `now()` calls are non-decreasing. -/
theorem C3_now_monotone (spt t0 : ℕ) (evs : List FEv)
    (h : List.Chain' (· ≤ ·) (t0 :: sampleTimes evs)) :
    List.Chain' (· ≤ ·)
      ((runFacade spt (Facade.init spt t0) evs).map Prod.fst) :=
  (runFacade_chain spt evs t0 h).tail

theorem C3_witness :
    List.Chain' (· ≤ ·)
      (10700 :: sampleTimes [FEv.nowCall, FEv.sampleCall 11050, FEv.nowCall]) ∧
    List.Chain' (· ≤ ·)
      ((runFacade 1000 (Facade.init 1000 10700)
        [FEv.nowCall, FEv.sampleCall 11050, FEv.nowCall]).map Prod.fst) :=
  ⟨by simp [sampleTimes, List.chain'_cons, List.chain'_singleton],
   C3_now_monotone 1000 10700 _
     (by simp [sampleTimes, List.chain'_cons, List.chain'_singleton])⟩

/-- C4: for a listener `w` registered exactly once, after a `remove w` step
no pass of any later execution that never re-adds `w` invokes `w`. -/
theorem C4_no_sample_after_remove (spt : ℕ) (w : Wid) (s s1 s2 : Sched)
    (evs : List Ev) (hone : s.m_workers.count w = 1)
    (hrem : Step spt s (Ev.remove w) s1) (hsteps : Steps spt s1 evs s2)
    (hnoadd : Ev.add w ∉ evs) :
    ∀ ws t d, Ev.pass ws t d ∈ evs → w ∉ ws := by
  cases hrem with
  | remove _w l' hrm =>
    obtain ⟨hv, rfl⟩ := removeImpl_some hrm
    have hcount : (s.m_workers.erase w).count w = 0 := by
      rw [List.count_erase_self, hone]
    have hw1 : w ∉ s.m_workers.erase w := List.count_eq_zero.1 hcount
    exact (steps_not_mem spt w hsteps hw1 hnoadd).2

theorem C4_witness :
    ((⟨false, [7], Pc.atWait⟩ : Sched).m_workers.count 7 = 1) ∧
    ∀ ws t d, Ev.pass ws t d ∈ [Ev.pass [] 5 1000] → 7 ∉ ws :=
  ⟨by decide,
   C4_no_sample_after_remove 1000 7 ⟨false, [7], Pc.atWait⟩ ⟨false, [], Pc.atWait⟩
     ⟨false, [], Pc.atWait⟩ [Ev.pass [] 5 1000] (by decide)
     (Step.remove _ 7 [] (by decide))
     (Steps.cons (Step.nextPass _ 5 rfl rfl) (Steps.nil _))
     (by decide)⟩

/-- C5: once the stop flag is set — which the destructor does under the
mutex, hence with the loop at its wait or already exited, never inside the
loop body — no execution from that state contains a further sample pass,
and from the wait the loop can take only the exit transition. -/
theorem C5_stop_ends_sampling (spt : ℕ) (s s' : Sched) (evs : List Ev)
    (hstop : s.m_stop = true) (hpc : s.pc ≠ Pc.atStart)
    (hsteps : Steps spt s evs s') :
    (∀ ws t d, Ev.pass ws t d ∉ evs) ∧
    (s.pc = Pc.atWait → Step spt s Ev.exitLoop { s with pc := Pc.exited }) :=
  ⟨(steps_stopped spt hsteps hstop hpc).2.2,
   fun h => Step.exitLoop s h hstop⟩

theorem C5_witness :
    ((⟨true, [], Pc.atWait⟩ : Sched).m_stop = true) ∧
    (∀ ws t d, Ev.pass ws t d ∉ [Ev.exitLoop]) ∧
    Step 1000 ⟨true, [], Pc.atWait⟩ Ev.exitLoop ⟨true, [], Pc.exited⟩ := by
  have h := C5_stop_ends_sampling 1000 ⟨true, [], Pc.atWait⟩ ⟨true, [], Pc.exited⟩
    [Ev.exitLoop] rfl (by decide)
    (Steps.cons (Step.exitLoop _ rfl rfl) (Steps.nil _))
  exact ⟨rfl, h.1, h.2 rfl⟩

/-- C6: a sample pass invokes `sample()` on exactly the listeners in the
registry at the time of the pass, in registry order (so once per listener
occurring once in the registry), and `add` appends at the end. -/
theorem C6_pass_registry_order (spt : ℕ) (s s' s2 s3 : Sched)
    (ws : List Wid) (t d : ℕ) (v : Wid)
    (hp : Step spt s (Ev.pass ws t d) s') (ha : Step spt s2 (Ev.add v) s3) :
    ws = s.m_workers ∧ (∀ w, s.m_workers.count w = 1 → ws.count w = 1) ∧
    s3.m_workers = s2.m_workers ++ [v] := by
  obtain ⟨h1, _⟩ := pass_is_registry hp
  exact ⟨h1, fun w hw => h1 ▸ hw, add_appends ha⟩

theorem C6_witness :
    Step 1000 ⟨false, [3], Pc.atWait⟩ (Ev.pass [3] 0 1000) ⟨false, [3], Pc.atWait⟩ ∧
    (([3] : List Wid) = [3] ∧
      (∀ w, ([3] : List Wid).count w = 1 → ([3] : List Wid).count w = 1) ∧
      ([3, 4] : List Wid) = [3] ++ [4]) := by
  have hp : Step 1000 ⟨false, [3], Pc.atWait⟩ (Ev.pass [3] 0 1000)
      ⟨false, [3], Pc.atWait⟩ := Step.nextPass _ 0 rfl rfl
  have ha : Step 1000 ⟨false, [3], Pc.atWait⟩ (Ev.add 4)
      ⟨false, [3, 4], Pc.atWait⟩ := Step.add _ 4
  exact ⟨hp, C6_pass_registry_order 1000 _ _ _ _ [3] 0 1000 4 hp ha⟩

/-- C7: the wake deadline of every loop iteration equals the current
reading of the underlying clock truncated down to the nearest whole second
plus one second; equivalently it is the least multiple of one second
strictly greater than the reading, and lies within one second of it. -/
theorem C7_wake_deadline (spt : ℕ) (s s' : Sched) (ws : List Wid) (t d : ℕ)
    (hspt : 0 < spt) (hp : Step spt s (Ev.pass ws t d) s') :
    d = spt * (t / spt) + spt ∧ d % spt = 0 ∧ t < d ∧ d ≤ t + spt ∧
    ∀ m, m % spt = 0 → t < m → d ≤ m := by
  obtain ⟨_, hd⟩ := pass_is_registry hp
  subst hd
  exact ⟨rfl, nextDeadline_mod spt t, lt_nextDeadline spt t hspt,
    nextDeadline_le spt t, fun m hm ht => nextDeadline_least spt t m hspt hm ht⟩

theorem C7_witness :
    (0 : ℕ) < 1000 ∧
    ((3000 : ℕ) = 1000 * (2345 / 1000) + 1000 ∧ (3000 : ℕ) % 1000 = 0 ∧
      (2345 : ℕ) < 3000 ∧ (3000 : ℕ) ≤ 2345 + 1000 ∧
      ∀ m, m % 1000 = 0 → 2345 < m → 3000 ≤ m) :=
  ⟨by decide,
   C7_wake_deadline 1000 ⟨false, [], Pc.atWait⟩ ⟨false, [], Pc.atWait⟩ [] 2345 3000
     (by decide) (Step.nextPass _ 2345 rfl rfl)⟩

/-- C8: adding pairwise-distinct listeners to the empty registry and then
removing them in reverse order leaves the registry empty (every removal
finds its target), and a pass taken from an empty registry invokes zero
listeners. -/
theorem C8_add_remove_reverse (ws : List Wid) (h : ws.Nodup)
    (spt t d : ℕ) (s s' : Sched) (l : List Wid)
    (hs : s.m_workers = []) (hp : Step spt s (Ev.pass l t d) s') :
    removeSeq (addSeq [] ws) ws.reverse = some [] ∧ l = [] := by
  constructor
  · rw [addSeq_eq, List.nil_append]
    exact removeSeq_reverse ws h
  · rw [(pass_is_registry hp).1, hs]

theorem C8_witness :
    ([1, 2, 3] : List Wid).Nodup ∧
    (removeSeq (addSeq [] [1, 2, 3]) ([1, 2, 3] : List Wid).reverse = some [] ∧
      ([] : List Wid) = []) :=
  ⟨by decide,
   C8_add_remove_reverse [1, 2, 3] (by decide) 1000 0 1000 ⟨false, [], Pc.atWait⟩
     ⟨false, [], Pc.atWait⟩ [] rfl (Step.nextPass _ 0 rfl rfl)⟩

/-- C9: with times in milliseconds (`spt = 1000`), a facade constructed
while the source reads 10.700 s has `now() = 10 s`; after a `sample()`
taken while the source reads 11.050 s, every subsequent `now()` call (with
no further sample) returns 11 s. -/
theorem C9_concrete_scenario (evs : List FEv)
    (hno : ∀ u, FEv.sampleCall u ∉ evs) :
    now (Facade.init 1000 10700) = 10 * 1000 ∧
    ∀ p ∈ runFacade 1000 (sample 1000 11050 (Facade.init 1000 10700)) evs,
      p.1 = 11 * 1000 := by
  refine ⟨rfl, fun p hp => ?_⟩
  obtain ⟨_, h2⟩ :=
    runFacade_no_sample 1000 (sample 1000 11050 (Facade.init 1000 10700)) evs hno
  rw [h2 p hp]
  rfl

theorem C9_witness :
    (∀ u, FEv.sampleCall u ∉ [FEv.nowCall]) ∧
    (now (Facade.init 1000 10700) = 10 * 1000 ∧
      ∀ p ∈ runFacade 1000 (sample 1000 11050 (Facade.init 1000 10700)) [FEv.nowCall],
        p.1 = 11 * 1000) :=
  ⟨by intro u; simp, C9_concrete_scenario [FEv.nowCall] (by intro u; simp)⟩

/-- C10: under the implicit precondition that `w` occurs in the registry,
`remove(w)` erases at a valid position and removes exactly the first
occurrence of `w`; on a registry not containing `w`, the search yields
`end()` and the erase is the invalid erase-at-end branch. -/
theorem C10_remove_first_occurrence (l1 l2 labs : List Wid) (w : Wid)
    (hfirst : w ∉ l1) (habs : w ∉ labs) :
    removeImpl (l1 ++ w :: l2) w = some (l1 ++ l2) ∧ removeImpl labs w = none := by
  constructor
  · have hm : w ∈ l1 ++ w :: l2 := by simp
    rw [removeImpl_eq, if_pos hm, List.erase_append_right _ hfirst,
      List.erase_cons_head]
  · rw [removeImpl_eq, if_neg habs]

theorem C10_witness :
    ((5 : Wid) ∉ ([1] : List Wid)) ∧
    (removeImpl ([1] ++ 5 :: [2, 5]) 5 = some ([1] ++ [2, 5]) ∧
      removeImpl [1, 2] 5 = none) :=
  ⟨by decide, C10_remove_first_occurrence [1] [2, 5] [1, 2] 5 (by decide) (by decide)⟩

end BasicSecondsClock
